import Mathlib

/-!
Verification of the text-overlay video service (src/main.py) against its
specification.  The Python source is shallowly embedded below:

* hex_to_rgb (main.py lines 15-20) with a faithful model of the Python
  builtin int(s, 16);
* the textwrap.wrap call (line 72) with a faithful model of CPython's
  textwrap.TextWrapper at its default settings (expand_tabs, tabsize 8,
  replace_whitespace, drop_whitespace, break_long_words, break_on_hyphens,
  no indents, no max_lines), character classes taken at their ASCII meaning;
* the font sizing, font fallback, layout and per-frame drawing of
  overlay_text (lines 71-123), with PIL fonts and glyph rasterisation kept
  abstract: a font carries its metrics, a measuring function and a coverage
  function (which pixels of a drawn line are glyph body / stroke outline),
  reflecting PIL's documented behaviour that draw.text changes only pixels
  inside the glyph/stroke footprint;
* the whole request handler overlay_text (lines 35-130) as a function from
  a request and an environment (network / codec outcomes) to a result plus
  an ordered trace of the I/O effects it performed.

Python floats (font_scale) are modelled as rationals; all inputs used in
counterexamples are exactly representable in binary floating point.
-/

/-- Pixels as channel triples (values are uint8 contents; modelled on ℤ). -/
abbrev Pix : Type := Int × Int × Int

/-- cv2.cvtColor with COLOR_BGR2RGB or COLOR_RGB2BGR: swap first and third
channel (an exact, lossless permutation on uint8 data). -/
def swapRB (p : Pix) : Pix := (p.2.2, p.2.1, p.1)

/-- Python exceptions that the embedded code can raise. -/
inductive PyExc where
  | valueError
deriving DecidableEq

/-- How a job ends when it does not return a file: a fastapi HTTPException
with a status code, or an uncaught Python exception. -/
inductive Failure where
  | http (code : Nat)
  | exc (e : PyExc)
deriving DecidableEq

/-- The observable I/O effects of one job, in the order overlay_text
performs them. -/
inductive Ev where
  | fetch        -- requests.get(data.video_url)
  | writeTemp    -- NamedTemporaryFile for the downloaded video
  | openCap      -- cv2.VideoCapture(video_path)
  | makeTempOut  -- NamedTemporaryFile for the output video
  | openOut      -- cv2.VideoWriter(output_path, ...)
  | releaseCap   -- cap.release()
  | releaseOut   -- out.release()
  | removeTemp   -- os.remove(video_path)
deriving DecidableEq

deriving instance DecidableEq for Except

/-! ## Python character classes (ASCII meaning) -/

/-- Python whitespace characters (string.whitespace; also the keys of
textwrap's unicode_whitespace_trans). -/
def isPyWs (c : Char) : Bool :=
  c = ' ' || c = '\t' || c = '\n' || c = '\r' || c = '\x0b' || c = '\x0c'

/-- Regex class \w at its ASCII meaning: letters, digits, underscore. -/
def isWordChar (c : Char) : Bool := c.isAlpha || c.isDigit || c = '_'

/-- Regex class for letters used by textwrap's hyphen rules,
a word character that is not a digit. -/
def isLt (c : Char) : Bool := c.isAlpha || c = '_'

/-- Textwrap's word-punctuation class: word characters plus a few
punctuation marks that may precede an em-dash. -/
def isWp (c : Char) : Bool :=
  isWordChar c || c = '!' || c = '"' || c = Char.ofNat 39 || c = '&' ||
  c = '.' || c = ',' || c = '?'

/-! ## The builtin int(s, 16) and hex_to_rgb -/

/-- Value of one hexadecimal digit character, if it is one. -/
def hexDigitVal (c : Char) : Option Nat :=
  if '0' ≤ c ∧ c ≤ '9' then some (c.toNat - 48)
  else if 'a' ≤ c ∧ c ≤ 'f' then some (c.toNat - 87)
  else if 'A' ≤ c ∧ c ≤ 'F' then some (c.toNat - 65 + 10)
  else none

/-- Continuation of the digit parser: after a first digit, further digits,
with single underscores allowed between digits only. -/
def hexDigitsCore : Nat → List Char → Option Nat
  | acc, [] => some acc
  | acc, '_' :: c :: rest =>
    match hexDigitVal c with
    | some v => hexDigitsCore (16 * acc + v) rest
    | none => none
  | _, ['_'] => none
  | acc, c :: rest =>
    match hexDigitVal c with
    | some v => hexDigitsCore (16 * acc + v) rest
    | none => none

/-- A nonempty run of hex digits with single underscores between digits. -/
def parseHexDigits : List Char → Option Nat
  | [] => none
  | c :: rest =>
    match hexDigitVal c with
    | some v => hexDigitsCore v rest
    | none => none

/-- Strip ASCII whitespace from both ends (str.strip() at ASCII scope). -/
def stripAsciiWs (l : List Char) : List Char :=
  ((l.dropWhile isPyWs).reverse.dropWhile isPyWs).reverse

/-- Drop an optional 0x / 0X prefix, allowing one underscore after it. -/
def dropHexBase (l : List Char) : List Char :=
  match l with
  | '0' :: c :: rest =>
    if c = 'x' ∨ c = 'X' then
      match rest with
      | '_' :: rest1 => rest1
      | _ => rest
    else l
  | _ => l

/-- The Python builtin int(s, 16): optional surrounding whitespace, optional
sign, optional 0x prefix, then hex digits; anything else raises ValueError. -/
def pyIntBase16 (l : List Char) : Except PyExc Int :=
  let t := stripAsciiWs l
  let sn : Bool × List Char :=
    match t with
    | '+' :: r => (false, r)
    | '-' :: r => (true, r)
    | _ => (false, t)
  match parseHexDigits (dropHexBase sn.2) with
  | some v => Except.ok (if sn.1 then -(v : Int) else (v : Int))
  | none => Except.error PyExc.valueError

/-- hex_to_rgb from main.py lines 15-20: strip leading # characters, parse
the character pairs at slices 0:2, 2:4 and 4:6 as base-16 integers. -/
def hex_to_rgb (s : String) : Except PyExc (Int × Int × Int) := do
  let t := s.data.dropWhile (fun c => c = '#')
  let r ← pyIntBase16 (t.take 2)
  let g ← pyIntBase16 ((t.drop 2).take 2)
  let b ← pyIntBase16 ((t.drop 4).take 2)
  return (r, g, b)

/-- Lower-case hex digit character for a value below 16. -/
def hexDigitChar (n : Nat) : Char :=
  if n < 10 then Char.ofNat (48 + n) else Char.ofNat (87 + n)

/-- Two lower-case hex digits of a byte. -/
def hexPair (n : Nat) : List Char := [hexDigitChar (n / 16), hexDigitChar (n % 16)]

/-- Modelled from the spec: to_hex(r, g, b), the 6-hex-digit string formed
from the three byte components (the spec's round-trip counterpart of
parse_color). -/
def toHex (r g b : Nat) : String := String.mk (hexPair r ++ hexPair g ++ hexPair b)

/-! ## textwrap.wrap at default settings -/

/-- str.expandtabs: replace each tab with spaces up to the next multiple of
the tab size, tracking the current column, which resets after newline and
carriage return. -/
def expandTabsAux (ts : Nat) : Nat → List Char → List Char
  | _, [] => []
  | col, c :: rest =>
    if c = '\t' then
      (if ts = 0 then [] else List.replicate (ts - col % ts) ' ') ++
        expandTabsAux ts (if ts = 0 then col else col + (ts - col % ts)) rest
    else if c = '\n' ∨ c = '\r' then c :: expandTabsAux ts 0 rest
    else c :: expandTabsAux ts (col + 1) rest

/-- TextWrapper._munge_whitespace: expand tabs (tabsize 8), then map every
whitespace character to a space. -/
def munge (l : List Char) : List Char :=
  (expandTabsAux 8 0 l).map (fun c => if isPyWs c then ' ' else c)

/-- Length of the leading whitespace run. -/
def wsRun : List Char → Nat
  | [] => 0
  | c :: rest => if isPyWs c then wsRun rest + 1 else 0

/-- Length of the leading run of hyphen characters. -/
def dashRun : List Char → Nat
  | [] => 0
  | c :: rest => if c = '-' then dashRun rest + 1 else 0

/-- Character test at an index, false when out of range. -/
def chIs (t : List Char) (i : Nat) (p : Char → Bool) : Bool :=
  match t.get? i with
  | some c => p c
  | none => false

/-- The em-dash alternative of textwrap's wordsep regex at position i: a run
of two or more hyphens preceded by a word-punctuation character and followed
by a word character. -/
def emDashAt (t : List Char) (i : Nat) : Bool :=
  decide (1 ≤ i) && chIs t (i - 1) isWp &&
  decide (2 ≤ dashRun (t.drop i)) &&
  chIs t (i + dashRun (t.drop i)) isWordChar

/-- The hyphenated-word break of the wordsep regex: a hyphen at position p
whose neighbourhood matches letter-letter-hyphen or letter-hyphen-letter-
hyphen behind and letter, optional hyphen, letter ahead. -/
def hyphenBreakAt (t : List Char) (p : Nat) : Bool :=
  chIs t p (fun c => c = '-') &&
  ((decide (2 ≤ p) && chIs t (p - 1) isLt && chIs t (p - 2) isLt) ||
   (decide (3 ≤ p) && chIs t (p - 1) isLt && chIs t (p - 2) (fun c => c = '-') &&
    chIs t (p - 3) isLt)) &&
  ((chIs t (p + 1) isLt && chIs t (p + 2) isLt) ||
   (chIs t (p + 1) isLt && chIs t (p + 2) (fun c => c = '-') && chIs t (p + 3) isLt))

/-- End position of the word chunk that starts before position p: advance
until the first position where the regex's word alternative can stop — a
hyphenated-word break (which also consumes the hyphen), the end of the word
(whitespace or end of text), or a following em-dash. -/
def wordEndF (t : List Char) : Nat → Nat → Nat
  | 0, p => p
  | fuel + 1, p =>
    if p < t.length then
      if hyphenBreakAt t p then p + 1
      else if chIs t p isPyWs then p
      else if emDashAt t p then p
      else wordEndF t fuel (p + 1)
    else p

/-- Length of the chunk starting at position i of the munged text: a
whitespace run, an em-dash run, or a word (possibly ending in a hyphen). -/
def chunkLen (t : List Char) (i : Nat) : Nat :=
  if chIs t i isPyWs then wsRun (t.drop i)
  else if emDashAt t i then dashRun (t.drop i)
  else wordEndF t t.length (i + 1) - i

/-- All chunks of the text from position i on (fuel-driven; the fuel
t.length - i is always sufficient since chunks are nonempty). -/
def chunksFromF (t : List Char) : Nat → Nat → List (List Char)
  | 0, _ => []
  | fuel + 1, i =>
    if i < t.length then
      ((t.drop i).take (chunkLen t i)) :: chunksFromF t fuel (i + chunkLen t i)
    else []

/-- TextWrapper._split: the chunk list of a munged text. -/
def textChunks (t : List Char) : List (List Char) := chunksFromF t t.length 0

/-- Total character count of a chunk list. -/
def sumLens (cs : List (List Char)) : Nat := (cs.map List.length).sum

/-- Termination/fuel measure of the wrapping loop. -/
def muChunks (cs : List (List Char)) : Nat := sumLens cs + cs.length

/-- A chunk is whitespace-only (chunk.strip() == '', true for the empty
chunk as well). -/
def stripIsEmpty (l : List Char) : Bool := l.all isPyWs

/-- Drop a leading whitespace chunk, but only once at least one line has
been emitted. -/
def dropLeadingWs (hasLines : Bool) (cs : List (List Char)) : List (List Char) :=
  match cs with
  | c :: rest => if hasLines && stripIsEmpty c then rest else cs
  | [] => []

/-- The greedy packing loop: move chunks onto the current line while the
accumulated length stays within the width. -/
def packLine (width : Nat) : Nat → List (List Char) → List (List Char) × List (List Char)
  | _, [] => ([], [])
  | n, c :: rest =>
    if n + c.length ≤ width then
      let pr := packLine width (n + c.length) rest
      (c :: pr.1, pr.2)
    else ([], c :: rest)

/-- Last index below the bound holding a hyphen (str.rfind of a hyphen over
a prefix of the chunk). -/
def rfindDash (l : List Char) (bound : Nat) : Option Nat :=
  ((List.range bound).filter (fun i => l.get? i = some '-')).getLast?

/-- TextWrapper._handle_long_word with break_long_words and
break_on_hyphens: chop the chunk at the space left on the line, preferring
to chop just after the last hyphen in that prefix. -/
def handleLongWord (width curLen : Nat) (chunk : List Char) : List Char × List Char :=
  let spaceLeft := if width < 1 then 1 else width - curLen
  let e :=
    if spaceLeft < chunk.length then
      match rfindDash chunk spaceLeft with
      | some h =>
        if 0 < h then
          if (chunk.take h).any (fun c => c ≠ '-') then h + 1 else spaceLeft
        else spaceLeft
      | none => spaceLeft
    else spaceLeft
  (chunk.take e, chunk.drop e)

/-- After packing, if the next chunk is wider than the whole line, chop a
prefix of it onto the current line. -/
def withLongWord (width : Nat) (cur rest : List (List Char)) :
    List (List Char) × List (List Char) :=
  match rest with
  | [] => (cur, [])
  | c :: rest1 =>
    if width < c.length then
      let hl := handleLongWord width (sumLens cur) c
      (cur ++ [hl.1], hl.2 :: rest1)
    else (cur, c :: rest1)

/-- Drop a trailing whitespace-only chunk from the current line. -/
def dropTrailingWs (cur : List (List Char)) : List (List Char) :=
  match cur.getLast? with
  | some lc => if stripIsEmpty lc then cur.dropLast else cur
  | none => cur

/-- One iteration of TextWrapper._wrap_chunks: the emitted line, if any, and
the chunks left for later lines. -/
def wrapStep (width : Nat) (hasLines : Bool) (cs : List (List Char)) :
    Option (List Char) × List (List Char) :=
  let cs1 := dropLeadingWs hasLines cs
  let pr := packLine width 0 cs1
  let wl := withLongWord width pr.1 pr.2
  let cur := dropTrailingWs wl.1
  (if cur.isEmpty then none else some cur.flatten, wl.2)

/-- The outer loop of TextWrapper._wrap_chunks, fuel-driven; muChunks cs is
always a sufficient fuel because every iteration strictly shrinks it. -/
def wrapLoopF (width : Nat) : Nat → Bool → List (List Char) → List (List Char)
  | 0, _, _ => []
  | fuel + 1, hasLines, cs =>
    if cs.isEmpty then []
    else
      match (wrapStep width hasLines cs).1 with
      | some l => l :: wrapLoopF width fuel true (wrapStep width hasLines cs).2
      | none => wrapLoopF width fuel hasLines (wrapStep width hasLines cs).2

/-- textwrap.wrap on a character list, for a positive width. -/
def pyWrapList (text : List Char) (width : Nat) : List (List Char) :=
  let cs := textChunks (munge text)
  wrapLoopF width (muChunks cs) false cs

/-- textwrap.wrap(text, width=w): raises ValueError for non-positive
widths, otherwise munges, splits and wraps. -/
def pyWrap (text : String) (w : Int) : Except PyExc (List String) :=
  if w ≤ 0 then Except.error PyExc.valueError
  else Except.ok ((pyWrapList text.data w.toNat).map String.mk)

/-- Lines 71-74 of main.py: textwrap.wrap(prompt, width=max_chars) when
max_chars is given, else the single line [prompt]. -/
def wrapLines (prompt : String) (maxChars : Option Int) : Except PyExc (List String) :=
  match maxChars with
  | some w => pyWrap prompt w
  | none => Except.ok [prompt]

/-- Characters that survive whitespace removal (used to state that wrapping
loses nothing but whitespace). -/
def notWs (c : Char) : Bool := ! isPyWs c

/-! ## Fonts, layout and drawing -/

/-- Coverage of a pixel by a drawn line of text: part of a glyph body, or of
the stroke outline around a glyph. -/
inductive Cov where
  | body
  | outline
deriving DecidableEq

/-- An abstract PIL font: metrics, a line-measuring function (the width
bbox[2] - bbox[0] of draw.textbbox at origin, without stroke), and the
rasterisation footprint of a line drawn at the origin with a given stroke
width.  PIL's draw.text changes exactly the pixels the coverage names. -/
structure PILFont where
  ascent : Nat
  descent : Nat
  measure : String → Nat
  coverage : String → Int → Int × Int → Option Cov

/-- Line 80 of main.py: font_size = int(data.font_scale * 20).  The builtin
int() on a float truncates toward zero. -/
def pyTruncInt (q : ℚ) : Int := if 0 ≤ q then ⌊q⌋ else ⌈q⌉

/-- The resolved pixel size of the overlay font. -/
def fontSizeOf (scale : ℚ) : Int := pyTruncInt (scale * 20)

/-- Modelled from the spec: round(font_scale * 20), with Python's
round-half-to-even tie-breaking — the size the spec claims the code uses. -/
def pyRound (q : ℚ) : Int :=
  if q - ⌊q⌋ < 1 / 2 then ⌊q⌋
  else if 1 / 2 < q - ⌊q⌋ then ⌊q⌋ + 1
  else if Even ⌊q⌋ then ⌊q⌋ else ⌊q⌋ + 1

/-- Lines 86-96 and 112-116 of main.py: for each line its draw anchor.
Line height is ascent + descent; the block's base y is pos_y when given and
otherwise height - total_text_height - 50 with a 10 px inter-line gap; each
line's x is pos_x when given and otherwise centred from that line's own
measured width with floor division by 2. -/
def linePositions (width height : Nat) (posX posY : Option Int) (f : PILFont)
    (lines : List String) : List (String × Int × Int) :=
  let lineHeight : Nat := f.ascent + f.descent
  let baseY : Int :=
    match posY with
    | some y => y
    | none =>
      (height : Int) -
        ((lines.length : Int) * (lineHeight : Int) + ((lines.length : Int) - 1) * 10) - 50
  lines.enum.map (fun pr =>
    (pr.2,
     match posX with
     | some x => x
     | none => ((width : Int) - (f.measure pr.2 : Int)).fdiv 2,
     baseY + (pr.1 : Int) * ((lineHeight : Int) + 10)))

/-- draw.text at a position with fill colour and a black stroke outline:
pixels in the glyph body get the fill colour, pixels in the stroke get
black, all other pixels keep their previous value. -/
def drawText (f : PILFont) (stroke : Int) (fill : Pix) (call : String × Int × Int)
    (img : Int × Int → Pix) : Int × Int → Pix :=
  fun q =>
    match f.coverage call.1 stroke (q.1 - call.2.1, q.2 - call.2.2) with
    | some Cov.body => fill
    | some Cov.outline => (0, 0, 0)
    | none => img q

/-- The per-frame loop body of lines 112-119: draw every line in order. -/
def drawAll (f : PILFont) (stroke : Int) (fill : Pix) :
    List (String × Int × Int) → (Int × Int → Pix) → Int × Int → Pix
  | [], img => img
  | c :: rest, img => drawAll f stroke fill rest (drawText f stroke fill c img)

/-- A decoded frame: its dimensions and its (BGR-ordered) pixel data. -/
structure Frame where
  width : Nat
  height : Nat
  px : Int × Int → Pix

/-- Lines 106-122 of main.py, the overlay step on one frame: convert BGR to
RGB, draw all text lines, convert back.  Dimensions are unchanged. -/
def overlayFrame (calls : List (String × Int × Int)) (f : PILFont) (stroke : Int)
    (fill : Pix) (fr : Frame) : Frame :=
  { width := fr.width
    height := fr.height
    px := fun q => swapRB (drawAll f stroke fill calls (fun p => swapRB (fr.px p)) q) }

/-! ## The request handler -/

/-- The VideoPrompt request model (main.py lines 23-32), font_scale as a
rational standing for the Python float. -/
structure VideoPrompt where
  video_url : String
  prompt : String
  pos_x : Option Int := none
  pos_y : Option Int := none
  font_scale : ℚ := 1
  thickness : Int := 2
  text_color : String := "#ffffff"
  font : String := "arial.ttf"
  max_chars : Option Int := none

/-- The environment one job runs in: the network outcome of fetching the
video, whether OpenCV can open the downloaded file, the stream properties
and decoded frames, and PIL's font loading (an error stands for the IOError
that ImageFont.truetype raises when the font cannot be read). -/
structure World where
  fetch : Except Unit Nat
  opens : Bool
  width : Nat
  height : Nat
  fps : ℚ
  frames : List Frame
  truetype : String → Int → Except Unit PILFont
  defaultFont : PILFont

/-- Lines 81-84 of main.py: try ImageFont.truetype, on IOError fall back to
ImageFont.load_default(). -/
def resolveFont (env : World) (name : String) (size : Int) : PILFont :=
  match env.truetype name size with
  | Except.ok f => f
  | Except.error _ => env.defaultFont

/-- The returned job result: the written frames and stream properties. -/
structure JobOut where
  frames : List Frame
  width : Nat
  height : Nat
  fps : ℚ

/-- The trace prefix after the writer has been created. -/
def evPre : List Ev := [Ev.fetch, Ev.writeTemp, Ev.openCap, Ev.makeTempOut, Ev.openOut]

/-- overlay_text (main.py lines 35-130): download, save to a temp file, open
with OpenCV, create the writer, wrap the prompt, resolve the font, convert
the colour, overlay every frame, then release both streams and delete the
temp input.  Returns the result together with the ordered I/O trace. -/
def overlay_text (req : VideoPrompt) (env : World) : Except Failure JobOut × List Ev :=
  match env.fetch with
  | Except.error _ => (Except.error (Failure.http 400), [Ev.fetch])
  | Except.ok code =>
    if code = 200 then
      if env.opens then
        match wrapLines req.prompt req.max_chars with
        | Except.error _ => (Except.error (Failure.exc PyExc.valueError), evPre)
        | Except.ok linhas =>
          let fonte := resolveFont env req.font (fontSizeOf req.font_scale)
          match hex_to_rgb req.text_color with
          | Except.error _ => (Except.error (Failure.exc PyExc.valueError), evPre)
          | Except.ok color =>
            let calls := linePositions env.width env.height req.pos_x req.pos_y fonte linhas
            (Except.ok
              { frames := env.frames.map (overlayFrame calls fonte req.thickness color)
                width := env.width
                height := env.height
                fps := env.fps },
             evPre ++ [Ev.releaseCap, Ev.releaseOut, Ev.removeTemp])
      else (Except.error (Failure.http 500), [Ev.fetch, Ev.writeTemp, Ev.openCap])
    else (Except.error (Failure.http 400), [Ev.fetch])

/-! ## Concrete sample data for witnesses and counterexamples -/

/-- A small abstract font whose glyphs cover no pixels. -/
def trivFont : PILFont :=
  { ascent := 10, descent := 5, measure := fun _ => 30, coverage := fun _ _ _ => none }

/-- A constant-colour 2 by 2 sample frame. -/
def frame0 : Frame := { width := 2, height := 2, px := fun _ => (9, 8, 7) }

/-- An environment in which the download succeeds with status 200, the video
opens, and the requested font fails to load. -/
def envOk : World :=
  { fetch := Except.ok 200, opens := true, width := 100, height := 200, fps := 30,
    frames := [frame0], truetype := fun _ _ => Except.error (), defaultFont := trivFont }

/-- An environment in which requests.get raises. -/
def envFetchErr : World := { envOk with fetch := Except.error () }

/-- An environment in which the downloaded file cannot be opened. -/
def envNoOpen : World := { envOk with opens := false }

/-- A plain request with default styling. -/
def reqBase : VideoPrompt := { video_url := "http://host/v.mp4", prompt := "hi" }

/-- The same request with a malformed colour. -/
def reqBadColor : VideoPrompt := { reqBase with text_color := "#zzzzzz" }

/-- A request with a whitespace-only prompt and wrapping enabled. -/
def reqWsPrompt : VideoPrompt := { reqBase with prompt := " ", max_chars := some 1 }

/-- A request with an empty prompt and max_chars = 0. -/
def reqZeroWidth : VideoPrompt := { reqBase with prompt := "", max_chars := some 0 }

/-! ## Lemmas about the wrapping loop -/

theorem sumLens_nil : sumLens [] = 0 := rfl

theorem sumLens_cons (c : List Char) (cs : List (List Char)) :
    sumLens (c :: cs) = c.length + sumLens cs := by
  simp [sumLens]

theorem sumLens_append (a b : List (List Char)) :
    sumLens (a ++ b) = sumLens a + sumLens b := by
  simp [sumLens]

theorem muChunks_nil : muChunks [] = 0 := rfl

theorem muChunks_cons (c : List Char) (cs : List (List Char)) :
    muChunks (c :: cs) = c.length + 1 + muChunks cs := by
  simp [muChunks, sumLens_cons]; omega

theorem muChunks_append (a b : List (List Char)) :
    muChunks (a ++ b) = muChunks a + muChunks b := by
  simp [muChunks, sumLens_append]; omega

theorem muChunks_eq_zero {cs : List (List Char)} (h : muChunks cs = 0) : cs = [] := by
  cases cs with
  | nil => rfl
  | cons c r => simp [muChunks_cons] at h

theorem packLine_append (w : Nat) : ∀ (n : Nat) (l : List (List Char)),
    (packLine w n l).1 ++ (packLine w n l).2 = l := by
  intro n l
  induction l generalizing n with
  | nil => simp [packLine]
  | cons c rest ih =>
    by_cases hf : n + c.length ≤ w
    · simp only [packLine, if_pos hf, List.cons_append]
      rw [ih]
    · simp [packLine, if_neg hf]

theorem packLine_sum (w : Nat) : ∀ (n : Nat) (l : List (List Char)),
    (packLine w n l).1 = [] ∨ n + sumLens (packLine w n l).1 ≤ w := by
  intro n l
  induction l generalizing n with
  | nil => left; rfl
  | cons c rest ih =>
    by_cases hf : n + c.length ≤ w
    · right
      simp only [packLine, if_pos hf]
      rcases ih (n + c.length) with h | h
      · rw [h]; simpa [sumLens] using hf
      · rw [sumLens_cons]; omega
    · left; simp [packLine, if_neg hf]

theorem packLine_not_fit (w : Nat) : ∀ (n : Nat) (l : List (List Char))
    (c : List Char) (r : List (List Char)), (packLine w n l).2 = c :: r →
    ¬ (n + sumLens (packLine w n l).1 + c.length ≤ w) := by
  intro n l
  induction l generalizing n with
  | nil => intro c r h; simp [packLine] at h
  | cons d rest ih =>
    intro c r h
    by_cases hf : n + d.length ≤ w
    · simp only [packLine, if_pos hf] at h ⊢
      have := ih (n + d.length) c r h
      rw [sumLens_cons]; omega
    · simp only [packLine, if_neg hf] at h ⊢
      cases h
      simp [sumLens_nil]; omega

theorem rfindDash_lt {l : List Char} {b h : Nat} (hh : rfindDash l b = some h) : h < b := by
  have hm : h ∈ (List.range b).filter (fun i => l.get? i = some '-') :=
    List.mem_of_getLast?_eq_some hh
  have := (List.mem_filter.mp hm).1
  exact List.mem_range.mp this

theorem handleLongWord_append (w n : Nat) (c : List Char) :
    (handleLongWord w n c).1 ++ (handleLongWord w n c).2 = c := by
  simp [handleLongWord]

theorem handleLongWord_len_le (w n : Nat) (c : List Char) (hw : 1 ≤ w) (hn : n ≤ w) :
    (handleLongWord w n c).1.length ≤ w - n := by
  have hwlt : ¬ (w < 1) := by omega
  unfold handleLongWord
  simp only [if_neg hwlt]
  set sl := w - n with hsl
  have he : ∀ e, e ≤ sl → (c.take e).length ≤ w - n := by
    intro e hel
    simp only [List.length_take]
    omega
  by_cases h1 : sl < c.length
  · simp only [if_pos h1]
    cases hrf : rfindDash c sl with
    | none => exact he sl le_rfl
    | some h =>
      have hlt : h < sl := rfindDash_lt hrf
      by_cases h0 : 0 < h
      · by_cases ha : (c.take h).any (fun x => x ≠ '-')
        · simp only [if_pos h0, if_pos ha]
          exact he (h + 1) (by omega)
        · simp only [if_pos h0, if_neg ha]
          exact he sl le_rfl
      · simp only [if_neg h0]
        exact he sl le_rfl
  · simp only [if_neg h1]
    exact he sl le_rfl

theorem handleLongWord_pos (w n : Nat) (c : List Char) (hc : c ≠ [])
    (hn : n < w ∨ w < 1) : 1 ≤ (handleLongWord w n c).1.length := by
  have hsl : 1 ≤ (if w < 1 then 1 else w - n) := by
    by_cases h : w < 1
    · simp [h]
    · simp only [if_neg h]; omega
  unfold handleLongWord
  simp only []
  set sl := if w < 1 then 1 else w - n with hsldef
  have hcl : 1 ≤ c.length := by
    cases c with
    | nil => exact absurd rfl hc
    | cons a r => simp
  have he : ∀ e, 1 ≤ e → 1 ≤ (c.take e).length := by
    intro e he1
    simp only [List.length_take]
    omega
  by_cases h1 : sl < c.length
  · simp only [if_pos h1]
    cases hrf : rfindDash c sl with
    | none => exact he sl hsl
    | some h =>
      by_cases h0 : 0 < h
      · by_cases ha : (c.take h).any (fun x => x ≠ '-')
        · simp only [if_pos h0, if_pos ha]; exact he (h + 1) (by omega)
        · simp only [if_pos h0, if_neg ha]; exact he sl hsl
      · simp only [if_neg h0]; exact he sl hsl
  · simp only [if_neg h1]
    exact he sl hsl

theorem wrapStep_snd (w : Nat) (b : Bool) (cs : List (List Char)) :
    (wrapStep w b cs).2 =
      (withLongWord w (packLine w 0 (dropLeadingWs b cs)).1
        (packLine w 0 (dropLeadingWs b cs)).2).2 := rfl

theorem wrapStep_fst (w : Nat) (b : Bool) (cs : List (List Char)) :
    (wrapStep w b cs).1 =
      (if (dropTrailingWs (withLongWord w (packLine w 0 (dropLeadingWs b cs)).1
            (packLine w 0 (dropLeadingWs b cs)).2).1).isEmpty then none
       else some (dropTrailingWs (withLongWord w (packLine w 0 (dropLeadingWs b cs)).1
            (packLine w 0 (dropLeadingWs b cs)).2).1).flatten) := rfl

theorem muChunks_pos {cs : List (List Char)} (h : cs ≠ []) : 1 ≤ muChunks cs := by
  cases cs with
  | nil => exact absurd rfl h
  | cons c r => rw [muChunks_cons]; omega

theorem wl_mu_lt (w : Nat) (cs1 : List (List Char)) (h : cs1 ≠ []) :
    muChunks (withLongWord w (packLine w 0 cs1).1 (packLine w 0 cs1).2).2 <
      muChunks cs1 := by
  have hab : (packLine w 0 cs1).1 ++ (packLine w 0 cs1).2 = cs1 := packLine_append w 0 cs1
  have hmu : muChunks (packLine w 0 cs1).1 + muChunks (packLine w 0 cs1).2 =
      muChunks cs1 := by
    rw [← muChunks_append, hab]
  cases hbb : (packLine w 0 cs1).2 with
  | nil =>
    rw [hbb, muChunks_nil] at hmu
    simp only [withLongWord]
    rw [muChunks_nil]
    exact muChunks_pos h
  | cons c b1 =>
    rw [hbb, muChunks_cons] at hmu
    by_cases hw : w < c.length
    · simp only [withLongWord, if_pos hw]
      rw [muChunks_cons]
      have hsplit : (handleLongWord w (sumLens (packLine w 0 cs1).1) c).1.length +
          (handleLongWord w (sumLens (packLine w 0 cs1).1) c).2.length = c.length := by
        have h2 := congrArg List.length
          (handleLongWord_append w (sumLens (packLine w 0 cs1).1) c)
        simpa using h2
      have hcne : c ≠ [] := by
        intro hc
        rw [hc] at hw
        simp at hw
      have hpos : 1 ≤ muChunks (packLine w 0 cs1).1 ∨
          1 ≤ (handleLongWord w (sumLens (packLine w 0 cs1).1) c).1.length := by
        cases hpa : (packLine w 0 cs1).1 with
        | nil =>
          right
          refine handleLongWord_pos w (sumLens []) c hcne ?hn
          have h0 : sumLens ([] : List (List Char)) = 0 := rfl
          rw [h0]
          omega
        | cons x r =>
          left
          exact muChunks_pos (by simp)
      omega
    · simp only [withLongWord, if_neg hw]
      rw [muChunks_cons]
      have hane : 1 ≤ muChunks (packLine w 0 cs1).1 := by
        cases hpa : (packLine w 0 cs1).1 with
        | nil =>
          exfalso
          have hnf := packLine_not_fit w 0 cs1 c b1 hbb
          rw [hpa, sumLens_nil] at hnf
          omega
        | cons x r =>
          exact muChunks_pos (by simp)
      omega

theorem wl_mu_le (w : Nat) (cs1 : List (List Char)) :
    muChunks (withLongWord w (packLine w 0 cs1).1 (packLine w 0 cs1).2).2 ≤
      muChunks cs1 := by
  cases cs1 with
  | nil =>
    simp only [packLine, withLongWord]
    exact le_refl _
  | cons x r =>
    exact le_of_lt (wl_mu_lt w (x :: r) (by simp))

theorem wrapStep_mu_lt (w : Nat) (b : Bool) (cs : List (List Char)) (h : cs ≠ []) :
    muChunks (wrapStep w b cs).2 < muChunks cs := by
  rw [wrapStep_snd]
  cases cs with
  | nil => exact absurd rfl h
  | cons c r =>
    simp only [dropLeadingWs]
    by_cases hbc : b && stripIsEmpty c
    · rw [if_pos hbc]
      have h1 := wl_mu_le w r
      have h2 : muChunks (c :: r) = c.length + 1 + muChunks r := muChunks_cons c r
      omega
    · rw [if_neg hbc]
      exact wl_mu_lt w (c :: r) (by simp)

theorem wl_sum_le (w : Nat) (cs1 : List (List Char)) (hw : 1 ≤ w) :
    sumLens (withLongWord w (packLine w 0 cs1).1 (packLine w 0 cs1).2).1 ≤ w := by
  have hsum : sumLens (packLine w 0 cs1).1 ≤ w := by
    rcases packLine_sum w 0 cs1 with h | h
    · rw [h, sumLens_nil]; omega
    · omega
  cases hbb : (packLine w 0 cs1).2 with
  | nil =>
    simp only [withLongWord]
    exact hsum
  | cons c b1 =>
    by_cases hwc : w < c.length
    · simp only [withLongWord, if_pos hwc]
      rw [sumLens_append, sumLens_cons, sumLens_nil]
      have := handleLongWord_len_le w (sumLens (packLine w 0 cs1).1) c hw hsum
      omega
    · simp only [withLongWord, if_neg hwc]
      exact hsum

theorem sumLens_dropTrailing_le (x : List (List Char)) :
    sumLens (dropTrailingWs x) ≤ sumLens x := by
  unfold dropTrailingWs
  cases hl : x.getLast? with
  | none => exact le_refl _
  | some lc =>
    by_cases hs : stripIsEmpty lc
    · simp only [if_pos hs]
      have hx : x.dropLast ++ [lc] = x := List.dropLast_append_getLast? lc hl
      calc sumLens x.dropLast ≤ sumLens x.dropLast + sumLens [lc] := by omega
        _ = sumLens (x.dropLast ++ [lc]) := (sumLens_append _ _).symm
        _ = sumLens x := by rw [hx]
    · simp only [if_neg hs]
      exact le_refl _

theorem flatten_length_eq_sumLens (x : List (List Char)) :
    x.flatten.length = sumLens x := by
  simp [sumLens]

theorem wrapStep_line_le (w : Nat) (b : Bool) (cs : List (List Char)) (l : List Char)
    (hw : 1 ≤ w) (h : (wrapStep w b cs).1 = some l) : l.length ≤ w := by
  rw [wrapStep_fst] at h
  by_cases he : (dropTrailingWs (withLongWord w (packLine w 0 (dropLeadingWs b cs)).1
      (packLine w 0 (dropLeadingWs b cs)).2).1).isEmpty
  · rw [if_pos he] at h
    cases h
  · rw [if_neg he] at h
    have hl : l = (dropTrailingWs (withLongWord w (packLine w 0 (dropLeadingWs b cs)).1
        (packLine w 0 (dropLeadingWs b cs)).2).1).flatten := by
      cases h
      rfl
    rw [hl, flatten_length_eq_sumLens]
    calc sumLens (dropTrailingWs (withLongWord w (packLine w 0 (dropLeadingWs b cs)).1
          (packLine w 0 (dropLeadingWs b cs)).2).1)
        ≤ sumLens (withLongWord w (packLine w 0 (dropLeadingWs b cs)).1
          (packLine w 0 (dropLeadingWs b cs)).2).1 := sumLens_dropTrailing_le _
      _ ≤ w := wl_sum_le w (dropLeadingWs b cs) hw

theorem filter_notWs_of_strip {l : List Char} (h : stripIsEmpty l = true) :
    l.filter notWs = [] := by
  rw [List.filter_eq_nil_iff]
  intro a ha
  have := (List.all_eq_true.mp h) a ha
  simp [notWs, this]

theorem pack_flatten (w : Nat) (n : Nat) (l : List (List Char)) :
    (packLine w n l).1.flatten ++ (packLine w n l).2.flatten = l.flatten := by
  rw [← List.flatten_append, packLine_append]

theorem wl_flatten (w : Nat) (a bb : List (List Char)) :
    (withLongWord w a bb).1.flatten ++ (withLongWord w a bb).2.flatten =
      a.flatten ++ bb.flatten := by
  cases bb with
  | nil => simp [withLongWord]
  | cons c b1 =>
    by_cases hwc : w < c.length
    · simp only [withLongWord, if_pos hwc]
      rw [List.flatten_append, List.flatten_cons, List.flatten_cons, List.flatten_cons]
      have := handleLongWord_append w (sumLens a) c
      simp only [List.flatten_cons, List.flatten_nil, List.append_nil]
      rw [List.append_assoc, ← List.append_assoc (handleLongWord w (sumLens a) c).1, this]
    · simp only [withLongWord, if_neg hwc]

theorem dropLeading_filter (b : Bool) (cs : List (List Char)) :
    ((dropLeadingWs b cs).flatten).filter notWs = (cs.flatten).filter notWs := by
  cases cs with
  | nil => rfl
  | cons c r =>
    simp only [dropLeadingWs]
    by_cases hbc : b && stripIsEmpty c
    · rw [if_pos hbc, List.flatten_cons, List.filter_append,
        filter_notWs_of_strip (Bool.and_elim_right hbc)]
      rfl
    · rw [if_neg hbc]

theorem dropTrailing_filter (x : List (List Char)) :
    ((dropTrailingWs x).flatten).filter notWs = (x.flatten).filter notWs := by
  unfold dropTrailingWs
  cases hl : x.getLast? with
  | none => rfl
  | some lc =>
    by_cases hs : stripIsEmpty lc
    · simp only [if_pos hs]
      have hx : x.dropLast ++ [lc] = x := List.dropLast_append_getLast? lc hl
      conv_rhs => rw [← hx]
      rw [List.flatten_append, List.filter_append, List.flatten_cons, List.flatten_nil,
        List.append_nil, filter_notWs_of_strip hs, List.append_nil]
    · simp only [if_neg hs]

theorem wrapStep_filter (w : Nat) (b : Bool) (cs : List (List Char)) :
    (((wrapStep w b cs).1.getD []) ++ (wrapStep w b cs).2.flatten).filter notWs =
      (cs.flatten).filter notWs := by
  have hline : (wrapStep w b cs).1.getD [] =
      (dropTrailingWs (withLongWord w (packLine w 0 (dropLeadingWs b cs)).1
        (packLine w 0 (dropLeadingWs b cs)).2).1).flatten := by
    rw [wrapStep_fst]
    by_cases he : (dropTrailingWs (withLongWord w (packLine w 0 (dropLeadingWs b cs)).1
        (packLine w 0 (dropLeadingWs b cs)).2).1).isEmpty
    · rw [if_pos he, (List.isEmpty_iff).mp he]
      rfl
    · rw [if_neg he]
      rfl
  rw [hline, wrapStep_snd, List.filter_append, dropTrailing_filter, ← List.filter_append,
    wl_flatten, pack_flatten, dropLeading_filter]

theorem wrapLoopF_len_le (w : Nat) : ∀ (fuel : Nat) (b : Bool) (cs : List (List Char)),
    muChunks cs ≤ fuel → 1 ≤ w → ∀ l ∈ wrapLoopF w fuel b cs, l.length ≤ w := by
  intro fuel
  induction fuel with
  | zero =>
    intro b cs hmu hw l hl
    simp [wrapLoopF] at hl
  | succ fuel ih =>
    intro b cs hmu hw l hl
    by_cases hcs : cs.isEmpty = true
    · rw [wrapLoopF, if_pos hcs] at hl
      simp at hl
    · have hne : cs ≠ [] := fun hc => hcs (by rw [hc]; rfl)
      have hlt := wrapStep_mu_lt w b cs hne
      cases hst : (wrapStep w b cs).1 with
      | some l1 =>
        rw [wrapLoopF, if_neg hcs, hst] at hl
        rcases List.mem_cons.mp hl with h1 | h1
        · rw [h1]
          exact wrapStep_line_le w b cs l1 hw hst
        · exact ih true (wrapStep w b cs).2 (by omega) hw l h1
      | none =>
        rw [wrapLoopF, if_neg hcs, hst] at hl
        exact ih b (wrapStep w b cs).2 (by omega) hw l hl

theorem wrapLoopF_filter (w : Nat) : ∀ (fuel : Nat) (b : Bool) (cs : List (List Char)),
    muChunks cs ≤ fuel →
    ((wrapLoopF w fuel b cs).flatten).filter notWs = (cs.flatten).filter notWs := by
  intro fuel
  induction fuel with
  | zero =>
    intro b cs hmu
    have : cs = [] := muChunks_eq_zero (by omega)
    rw [this]
    rfl
  | succ fuel ih =>
    intro b cs hmu
    by_cases hcs : cs.isEmpty = true
    · have : cs = [] := List.isEmpty_iff.mp hcs
      rw [this, wrapLoopF]
      rfl
    · have hne : cs ≠ [] := fun hc => hcs (by rw [hc]; rfl)
      have hlt := wrapStep_mu_lt w b cs hne
      have hws := wrapStep_filter w b cs
      cases hst : (wrapStep w b cs).1 with
      | some l1 =>
        rw [wrapLoopF, if_neg hcs, hst]
        rw [hst] at hws
        simp only [Option.getD_some] at hws
        rw [List.flatten_cons, List.filter_append,
          ih true (wrapStep w b cs).2 (by omega), ← List.filter_append, hws]
      | none =>
        rw [wrapLoopF, if_neg hcs, hst]
        rw [hst] at hws
        simp only [Option.getD_none, List.nil_append] at hws
        rw [ih b (wrapStep w b cs).2 (by omega), hws]

/-! ## Lemmas about chunking and munging -/

theorem wordEndF_ge (t : List Char) : ∀ (fuel p : Nat), p ≤ wordEndF t fuel p := by
  intro fuel
  induction fuel with
  | zero => intro p; exact le_refl _
  | succ fuel ih =>
    intro p
    unfold wordEndF
    by_cases h1 : p < t.length
    · rw [if_pos h1]
      by_cases h2 : hyphenBreakAt t p
      · rw [if_pos h2]; omega
      · rw [if_neg h2]
        by_cases h3 : chIs t p isPyWs
        · rw [if_pos h3]
        · rw [if_neg h3]
          by_cases h4 : emDashAt t p
          · rw [if_pos h4]
          · rw [if_neg h4]
            have := ih (p + 1)
            omega
    · rw [if_neg h1]

theorem wordEndF_le (t : List Char) : ∀ (fuel p : Nat), p ≤ t.length →
    wordEndF t fuel p ≤ t.length := by
  intro fuel
  induction fuel with
  | zero => intro p hp; exact hp
  | succ fuel ih =>
    intro p hp
    unfold wordEndF
    by_cases h1 : p < t.length
    · rw [if_pos h1]
      by_cases h2 : hyphenBreakAt t p
      · rw [if_pos h2]; omega
      · rw [if_neg h2]
        by_cases h3 : chIs t p isPyWs
        · rw [if_pos h3]; exact hp
        · rw [if_neg h3]
          by_cases h4 : emDashAt t p
          · rw [if_pos h4]; exact hp
          · rw [if_neg h4]
            exact ih (p + 1) (by omega)
    · rw [if_neg h1]; exact hp

theorem wsRun_le (l : List Char) : wsRun l ≤ l.length := by
  induction l with
  | nil => exact le_refl _
  | cons c r ih =>
    unfold wsRun
    by_cases h : isPyWs c
    · rw [if_pos h]; simpa using ih
    · rw [if_neg h]; simp

theorem dashRun_le (l : List Char) : dashRun l ≤ l.length := by
  induction l with
  | nil => exact le_refl _
  | cons c r ih =>
    unfold dashRun
    by_cases h : c = '-'
    · rw [if_pos h]; simpa using ih
    · rw [if_neg h]; simp

theorem chunkLen_pos (t : List Char) (i : Nat) (h : i < t.length) :
    1 ≤ chunkLen t i := by
  unfold chunkLen
  by_cases h1 : chIs t i isPyWs
  · rw [if_pos h1]
    have hd : t.drop i = t[i] :: t.drop (i + 1) := List.drop_eq_getElem_cons h
    have hg : t.get? i = some t[i] := by
      rw [List.get?_eq_getElem?]
      exact List.getElem?_eq_getElem h
    unfold chIs at h1
    rw [hg] at h1
    rw [hd]
    unfold wsRun
    rw [if_pos h1]
    omega
  · rw [if_neg h1]
    by_cases h2 : emDashAt t i
    · rw [if_pos h2]
      simp only [emDashAt, Bool.and_eq_true, decide_eq_true_eq] at h2
      omega
    · rw [if_neg h2]
      have := wordEndF_ge t t.length (i + 1)
      omega

theorem chunkLen_le (t : List Char) (i : Nat) (h : i < t.length) :
    chunkLen t i ≤ t.length - i := by
  unfold chunkLen
  by_cases h1 : chIs t i isPyWs
  · rw [if_pos h1]
    have := wsRun_le (t.drop i)
    rw [List.length_drop] at this
    exact this
  · rw [if_neg h1]
    by_cases h2 : emDashAt t i
    · rw [if_pos h2]
      have := dashRun_le (t.drop i)
      rw [List.length_drop] at this
      exact this
    · rw [if_neg h2]
      have := wordEndF_le t t.length (i + 1) (by omega)
      omega

theorem chunksFromF_flatten (t : List Char) : ∀ (fuel i : Nat),
    t.length - i ≤ fuel → (chunksFromF t fuel i).flatten = t.drop i := by
  intro fuel
  induction fuel with
  | zero =>
    intro i hf
    have : t.length ≤ i := by omega
    rw [List.drop_eq_nil_of_le this]
    rfl
  | succ fuel ih =>
    intro i hf
    by_cases h : i < t.length
    · rw [chunksFromF, if_pos h, List.flatten_cons]
      have hk1 := chunkLen_pos t i h
      have hk2 := chunkLen_le t i h
      rw [ih (i + chunkLen t i) (by omega)]
      have hdd : t.drop (i + chunkLen t i) = (t.drop i).drop (chunkLen t i) := by
        rw [List.drop_drop]
      rw [hdd, List.take_append_drop]
    · rw [chunksFromF, if_neg h]
      rw [List.drop_eq_nil_of_le (by omega)]
      rfl

theorem textChunks_flatten (t : List Char) : (textChunks t).flatten = t := by
  unfold textChunks
  rw [chunksFromF_flatten t t.length 0 (by omega)]
  rfl

theorem filter_notWs_replicate (n : Nat) :
    (List.replicate n ' ').filter notWs = [] := by
  apply List.filter_eq_nil_iff.mpr
  intro a ha
  have := List.eq_of_mem_replicate ha
  rw [this]
  simp [notWs, isPyWs]

theorem expandTabs_filter (ts : Nat) : ∀ (col : Nat) (l : List Char),
    (expandTabsAux ts col l).filter notWs = l.filter notWs := by
  intro col l
  induction l generalizing col with
  | nil => rfl
  | cons c r ih =>
    unfold expandTabsAux
    by_cases h1 : c = '\t'
    · rw [if_pos h1, List.filter_append]
      by_cases h2 : ts = 0
      · rw [if_pos h2]
        rw [ih]
        have hc : notWs c = false := by rw [h1]; rfl
        rw [List.filter_cons, hc]
        rfl
      · rw [if_neg h2, filter_notWs_replicate, List.nil_append, ih]
        have hc : notWs c = false := by rw [h1]; rfl
        rw [List.filter_cons, hc]
        rfl
    · rw [if_neg h1]
      by_cases h3 : c = '\n' ∨ c = '\r'
      · rw [if_pos h3, List.filter_cons, List.filter_cons, ih]
      · rw [if_neg h3, List.filter_cons, List.filter_cons, ih]

theorem munge_filter (l : List Char) : (munge l).filter notWs = l.filter notWs := by
  unfold munge
  rw [← expandTabs_filter 8 0 l]
  generalize expandTabsAux 8 0 l = m
  induction m with
  | nil => rfl
  | cons c r ih =>
    rw [List.map_cons, List.filter_cons, List.filter_cons]
    by_cases h : isPyWs c
    · have h1 : notWs c = false := by simp [notWs, h]
      have h2 : notWs (if isPyWs c then ' ' else c) = false := by
        rw [if_pos h]; rfl
      rw [h1, h2, ih]
      rfl
    · have hb : isPyWs c = false := by simpa using h
      have h1 : notWs c = true := by simp [notWs, hb]
      have h2 : (if isPyWs c then ' ' else c) = c := by rw [hb]; rfl
      rw [h2, h1, ih]

theorem pyWrapList_len_le (text : List Char) (w : Nat) (hw : 1 ≤ w) :
    ∀ l ∈ pyWrapList text w, l.length ≤ w := by
  unfold pyWrapList
  exact wrapLoopF_len_le w (muChunks (textChunks (munge text))) false
    (textChunks (munge text)) (le_refl _) hw

theorem pyWrapList_filter (text : List Char) (w : Nat) :
    ((pyWrapList text w).flatten).filter notWs = text.filter notWs := by
  unfold pyWrapList
  rw [wrapLoopF_filter w (muChunks (textChunks (munge text))) false
    (textChunks (munge text)) (le_refl _), textChunks_flatten, munge_filter]

theorem allWs_take (l : List Char) (n : Nat) (h : l.all isPyWs = true) :
    (l.take n).all isPyWs = true := by
  apply List.all_eq_true.mpr
  intro x hx
  exact List.all_eq_true.mp h x ((List.take_sublist n l).subset hx)

theorem allWs_drop (l : List Char) (n : Nat) (h : l.all isPyWs = true) :
    (l.drop n).all isPyWs = true := by
  apply List.all_eq_true.mpr
  intro x hx
  exact List.all_eq_true.mp h x ((List.drop_sublist n l).subset hx)

theorem wrapStep_ws_single (w : Nat) (b : Bool) (c : List Char)
    (hc : c.all isPyWs = true) :
    (wrapStep w b [c]).1 = none ∧
    ((wrapStep w b [c]).2 = [] ∨
      ∃ c1, (wrapStep w b [c]).2 = [c1] ∧ c1.all isPyWs = true) := by
  have hstrip : stripIsEmpty c = true := hc
  have hcs1 : dropLeadingWs b [c] = [] ∨ dropLeadingWs b [c] = [c] := by
    unfold dropLeadingWs
    by_cases h : (b && stripIsEmpty c) = true
    · left
      show (if (b && stripIsEmpty c) = true then ([] : List (List Char)) else [c]) = []
      rw [if_pos h]
    · right
      show (if (b && stripIsEmpty c) = true then ([] : List (List Char)) else [c]) = [c]
      rw [if_neg h]
  rcases hcs1 with hA | hB
  · rw [wrapStep_fst, wrapStep_snd, hA]
    exact ⟨rfl, Or.inl rfl⟩
  · rw [wrapStep_fst, wrapStep_snd, hB]
    by_cases hfit : 0 + c.length ≤ w
    · have hp : packLine w 0 [c] = ([c], []) := by
        simp only [packLine, if_pos hfit]
      rw [hp]
      have hwl : withLongWord w [c] [] = ([c], []) := rfl
      rw [hwl]
      have hdt : dropTrailingWs [c] = [] := by
        simp [dropTrailingWs, hstrip]
      rw [hdt]
      exact ⟨rfl, Or.inl rfl⟩
    · have hwc : w < c.length := by omega
      have hp : packLine w 0 [c] = ([], [c]) := by
        simp only [packLine, if_neg hfit]
      rw [hp]
      have hwl : withLongWord w [] [c] =
          ([(handleLongWord w (sumLens []) c).1], [(handleLongWord w (sumLens []) c).2]) := by
        simp only [withLongWord, if_pos hwc, List.nil_append]
      rw [hwl]
      have hte : stripIsEmpty (handleLongWord w (sumLens []) c).1 = true := by
        unfold handleLongWord
        exact allWs_take c _ hc
      have hdt : dropTrailingWs [(handleLongWord w (sumLens []) c).1] = [] := by
        simp [dropTrailingWs, hte]
      rw [hdt]
      refine ⟨rfl, Or.inr ⟨(handleLongWord w (sumLens []) c).2, rfl, ?hall⟩⟩
      unfold handleLongWord
      exact allWs_drop c _ hc
theorem wrapLoopF_ws_single (w : Nat) : ∀ (fuel : Nat) (b : Bool) (c : List Char),
    c.all isPyWs = true → wrapLoopF w fuel b [c] = [] := by
  intro fuel
  induction fuel with
  | zero => intro b c hc; rfl
  | succ fuel ih =>
    intro b c hc
    obtain ⟨h1, h2⟩ := wrapStep_ws_single w b c hc
    have hnem : ([c] : List (List Char)).isEmpty = false := rfl
    rw [wrapLoopF, hnem]
    simp only [Bool.false_eq_true, if_neg, not_false_iff]
    rw [h1]
    rcases h2 with h2 | ⟨c1, h2, hall⟩
    · rw [h2]
      cases fuel with
      | zero => rfl
      | succ f => rw [wrapLoopF]; rfl
    · rw [h2]
      exact ih b c1 hall

theorem chunksFromF_stop (t : List Char) : ∀ (fuel i : Nat), t.length ≤ i →
    chunksFromF t fuel i = [] := by
  intro fuel i h
  cases fuel with
  | zero => rfl
  | succ f =>
    rw [chunksFromF, if_neg (by omega)]

theorem wsRun_of_all (l : List Char) (h : l.all isPyWs = true) : wsRun l = l.length := by
  induction l with
  | nil => rfl
  | cons c r ih =>
    rw [List.all_cons, Bool.and_eq_true] at h
    unfold wsRun
    rw [if_pos h.1, ih h.2]
    rfl

theorem expandTabs_allWs (ts : Nat) : ∀ (col : Nat) (l : List Char),
    l.all isPyWs = true → (expandTabsAux ts col l).all isPyWs = true := by
  intro col l
  induction l generalizing col with
  | nil => intro h; rfl
  | cons c r ih =>
    intro h
    rw [List.all_cons, Bool.and_eq_true] at h
    unfold expandTabsAux
    by_cases h1 : c = '\t'
    · rw [if_pos h1, List.all_append, Bool.and_eq_true]
      constructor
      · apply List.all_eq_true.mpr
        intro x hx
        by_cases h2 : ts = 0
        · rw [if_pos h2] at hx; simp at hx
        · rw [if_neg h2] at hx
          rw [List.eq_of_mem_replicate hx]
          rfl
      · exact ih _ h.2
    · rw [if_neg h1]
      by_cases h3 : c = '\n' ∨ c = '\r'
      · rw [if_pos h3, List.all_cons, Bool.and_eq_true]
        exact ⟨h.1, ih 0 h.2⟩
      · rw [if_neg h3, List.all_cons, Bool.and_eq_true]
        exact ⟨h.1, ih (col + 1) h.2⟩

theorem munge_allWs (l : List Char) (h : l.all isPyWs = true) :
    (munge l).all isPyWs = true := by
  unfold munge
  have h1 := expandTabs_allWs 8 0 l h
  apply List.all_eq_true.mpr
  intro x hx
  obtain ⟨y, hy, hxy⟩ := List.mem_map.mp hx
  have hyw := List.all_eq_true.mp h1 y hy
  rw [← hxy, if_pos hyw]
  rfl

theorem textChunks_allWs (l : List Char) (h : l.all isPyWs = true) (hne : l ≠ []) :
    textChunks l = [l] := by
  unfold textChunks
  cases l with
  | nil => exact absurd rfl hne
  | cons c r =>
    show chunksFromF (c :: r) (r.length + 1) 0 = [c :: r]
    rw [chunksFromF, if_pos (by simp)]
    have hch : chIs (c :: r) 0 isPyWs = true := by
      unfold chIs
      have hg : (c :: r).get? 0 = some c := rfl
      rw [hg]
      rw [List.all_cons, Bool.and_eq_true] at h
      exact h.1
    have hk : chunkLen (c :: r) 0 = (c :: r).length := by
      unfold chunkLen
      rw [if_pos hch]
      have hd : (c :: r).drop 0 = c :: r := rfl
      rw [hd]
      exact wsRun_of_all (c :: r) h
    rw [hk]
    have h1 : ((c :: r).drop 0).take (c :: r).length = c :: r := by simp
    rw [h1, chunksFromF_stop (c :: r) r.length (0 + (c :: r).length) (by omega)]

theorem pyWrapList_allWs (text : List Char) (w : Nat) (h : text.all isPyWs = true) :
    pyWrapList text w = [] := by
  unfold pyWrapList
  have hm := munge_allWs text h
  cases hme : munge text with
  | nil => rfl
  | cons c r =>
    rw [hme] at hm
    rw [textChunks_allWs (c :: r) hm (by simp)]
    exact wrapLoopF_ws_single w (muChunks [c :: r]) false (c :: r) hm

theorem pyWrap_allWs (text : String) (w : Int) (hw : 1 ≤ w)
    (h : text.data.all isPyWs = true) : pyWrap text w = Except.ok ([] : List String) := by
  unfold pyWrap
  rw [if_neg (by omega), pyWrapList_allWs text.data w.toNat h]
  rfl

/-! ## Lemmas about drawing, layout and the pipeline -/

theorem swapRB_swapRB (p : Pix) : swapRB (swapRB p) = p := rfl

theorem drawAll_none (f : PILFont) (s : Int) (fill : Pix) (q : Int × Int) :
    ∀ (calls : List (String × Int × Int)) (img : Int × Int → Pix),
    (∀ c ∈ calls, f.coverage c.1 s (q.1 - c.2.1, q.2 - c.2.2) = none) →
    drawAll f s fill calls img q = img q := by
  intro calls
  induction calls with
  | nil => intro img h; rfl
  | cons c rest ih =>
    intro img h
    have hc := h c (List.mem_cons_self c rest)
    have hrest : ∀ d ∈ rest, f.coverage d.1 s (q.1 - d.2.1, q.2 - d.2.2) = none :=
      fun d hd => h d (List.mem_cons_of_mem c hd)
    unfold drawAll
    rw [ih (drawText f s fill c img) hrest]
    unfold drawText
    rw [hc]

theorem overlayFrame_nil (f : PILFont) (s : Int) (fill : Pix) (fr : Frame) :
    overlayFrame [] f s fill fr = fr := by
  cases fr with
  | mk w h px =>
    show Frame.mk w h
        (fun q => swapRB (drawAll f s fill [] (fun p => swapRB (px p)) q)) =
      Frame.mk w h px
    have hpx : (fun q => swapRB (drawAll f s fill [] (fun p => swapRB (px p)) q)) = px := by
      funext q
      show swapRB (swapRB (px q)) = px q
      exact swapRB_swapRB (px q)
    rw [hpx]

theorem linePositions_nil (width height : Nat) (px py : Option Int) (f : PILFont) :
    linePositions width height px py f [] = [] := rfl

theorem linePositions_getElem (width height : Nat) (posX posY : Option Int)
    (f : PILFont) (lines : List String) (i : Nat) (hi : i < lines.length) :
    (linePositions width height posX posY f lines)[i]? =
      some (lines[i],
        (match posX with
         | some x => x
         | none => ((width : Int) - (f.measure lines[i] : Int)).fdiv 2),
        (match posY with
         | some y => y
         | none =>
           (height : Int) - ((lines.length : Int) * ((f.ascent + f.descent : Nat) : Int) +
             ((lines.length : Int) - 1) * 10) - 50) +
          (i : Int) * (((f.ascent + f.descent : Nat) : Int) + 10)) := by
  unfold linePositions
  rw [List.getElem?_map, List.getElem?_enum, List.getElem?_eq_getElem hi]
  rfl

theorem resolveFont_fallback (env : World) (name : String) (size : Int)
    (h : env.truetype name size = Except.error ()) :
    resolveFont env name size = env.defaultFont := by
  unfold resolveFont
  rw [h]

theorem resolveFont_ok (env : World) (name : String) (size : Int) (f : PILFont)
    (h : env.truetype name size = Except.ok f) :
    resolveFont env name size = f := by
  unfold resolveFont
  rw [h]

set_option maxRecDepth 4000 in
theorem hexPair_parse : ∀ n, n < 256 →
    pyIntBase16 [hexDigitChar (n / 16), hexDigitChar (n % 16)] =
      Except.ok (n : Int) := by
  decide

theorem hexDigitChar_ne_hash : ∀ m, m < 16 → hexDigitChar m ≠ '#' := by
  decide

theorem hex_roundtrip (r g b : Nat) (hr : r < 256) (hg : g < 256) (hb : b < 256) :
    hex_to_rgb (toHex r g b) = Except.ok ((r : Int), (g : Int), (b : Int)) := by
  unfold toHex hex_to_rgb
  have hdata : (String.mk (hexPair r ++ hexPair g ++ hexPair b)).data =
      hexDigitChar (r / 16) :: hexDigitChar (r % 16) :: hexDigitChar (g / 16) ::
      hexDigitChar (g % 16) :: hexDigitChar (b / 16) :: hexDigitChar (b % 16) :: [] := by
    simp [hexPair]
  rw [hdata]
  have hne : ¬ (decide (hexDigitChar (r / 16) = '#') = true) := by
    simp only [decide_eq_true_eq]
    exact hexDigitChar_ne_hash (r / 16) (by omega)
  rw [List.dropWhile_cons, if_neg hne]
  have h1 := hexPair_parse r hr
  have h2 := hexPair_parse g hg
  have h3 := hexPair_parse b hb
  simp only [List.take_succ_cons, List.take_zero, List.drop_succ_cons, List.drop_zero,
    bind, Except.bind, h1, h2, h3]
  rfl

theorem overlay_text_fetchErr (req : VideoPrompt) (env : World)
    (hf : env.fetch = Except.error ()) :
    overlay_text req env = (Except.error (Failure.http 400), [Ev.fetch]) := by
  unfold overlay_text
  rw [hf]

theorem overlay_text_openFail (req : VideoPrompt) (env : World)
    (hf : env.fetch = Except.ok 200) (ho : env.opens = false) :
    overlay_text req env =
      (Except.error (Failure.http 500), [Ev.fetch, Ev.writeTemp, Ev.openCap]) := by
  unfold overlay_text
  rw [hf, ho]
  simp

theorem overlay_text_wrapFail (req : VideoPrompt) (env : World)
    (hf : env.fetch = Except.ok 200) (ho : env.opens = true)
    (hw : wrapLines req.prompt req.max_chars = Except.error PyExc.valueError) :
    overlay_text req env = (Except.error (Failure.exc PyExc.valueError), evPre) := by
  unfold overlay_text
  rw [hf, ho, hw]
  simp

theorem overlay_text_colorFail (req : VideoPrompt) (env : World) (ls : List String)
    (pe : PyExc) (hf : env.fetch = Except.ok 200) (ho : env.opens = true)
    (hw : wrapLines req.prompt req.max_chars = Except.ok ls)
    (hc : hex_to_rgb req.text_color = Except.error pe) :
    overlay_text req env = (Except.error (Failure.exc PyExc.valueError), evPre) := by
  unfold overlay_text
  rw [hf, ho, hw, hc]
  simp

theorem overlay_text_success (req : VideoPrompt) (env : World) (ls : List String)
    (col : Int × Int × Int) (hf : env.fetch = Except.ok 200) (ho : env.opens = true)
    (hw : wrapLines req.prompt req.max_chars = Except.ok ls)
    (hc : hex_to_rgb req.text_color = Except.ok col) :
    overlay_text req env =
      (Except.ok
        { frames := env.frames.map (overlayFrame
            (linePositions env.width env.height req.pos_x req.pos_y
              (resolveFont env req.font (fontSizeOf req.font_scale)) ls)
            (resolveFont env req.font (fontSizeOf req.font_scale)) req.thickness col)
          width := env.width
          height := env.height
          fps := env.fps },
       [Ev.fetch, Ev.writeTemp, Ev.openCap, Ev.makeTempOut, Ev.openOut,
        Ev.releaseCap, Ev.releaseOut, Ev.removeTemp]) := by
  unfold overlay_text
  rw [hf, ho, hw, hc]
  simp [evPre]

/-! ## Claim theorems -/

/-- C1, counterexample: textwrap.wrap splits a word longer than max_chars
mid-word; wrap_lines("aaaa", 3) = ["aaa", "a"], so the single word "aaaa"
appears on no line intact and joining the lines with spaces does not
reconstruct the original word sequence. -/
theorem C1_counterexample :
    wrapLines "aaaa" (some 3) = Except.ok ["aaa", "a"] ∧
    ∀ l ∈ (["aaa", "a"] : List String), l ≠ "aaaa" :=
  ⟨rfl, by decide⟩

/-- C1, amended: for every text and positive max_chars, wrap_lines packs
chunks greedily into lines; every returned line has at most max_chars
characters, and the returned lines preserve exactly the non-whitespace
characters of the text in order (words longer than max_chars, and
hyphenated words, may be split across lines). -/
theorem C1_wrap_amended (text : String) (w : Int) (hw : 1 ≤ w) (lines : List String)
    (h : wrapLines text (some w) = Except.ok lines) :
    (∀ l ∈ lines, (l.length : Int) ≤ w) ∧
    ((lines.map String.data).flatten).filter notWs = (text.data).filter notWs := by
  have hne : ¬ (w ≤ 0) := by omega
  have h2 : pyWrap text w = Except.ok lines := h
  unfold pyWrap at h2
  rw [if_neg hne] at h2
  have hinj := Except.ok.inj h2
  subst hinj
  constructor
  · intro l hl
    obtain ⟨lc, hlc, rfl⟩ := List.mem_map.mp hl
    have hb := pyWrapList_len_le text.data w.toNat (by omega) lc hlc
    have hlen : (String.mk lc).length = lc.length := rfl
    rw [hlen]
    omega
  · rw [List.map_map]
    have hcomp : (String.data ∘ String.mk) = fun l : List Char => l := by
      funext l
      rfl
    rw [hcomp, List.map_id']
    exact pyWrapList_filter text.data w.toNat

/-- C1 witness at text "ab cd" and max_chars 3. -/
theorem C1_wrap_amended_witness :
    (∀ l ∈ (["ab", "cd"] : List String), (l.length : Int) ≤ 3) ∧
    (((["ab", "cd"] : List String).map String.data).flatten).filter notWs =
      ("ab cd".data).filter notWs :=
  C1_wrap_amended "ab cd" 3 (by decide) ["ab", "cd"] rfl

/-- C2, counterexample: with text_color "#zzzzzz" and a video that downloads
and opens fine, the job does download the video, write the temp file, open
the capture and create the writer before failing with an uncaught
ValueError at colour conversion — the rejection is not before I/O. -/
theorem C2_counterexample :
    overlay_text reqBadColor envOk =
      (Except.error (Failure.exc PyExc.valueError), evPre) ∧
    Ev.fetch ∈ (overlay_text reqBadColor envOk).2 := by
  have h := overlay_text_colorFail reqBadColor envOk ["hi"] PyExc.valueError rfl rfl rfl rfl
  refine ⟨h, ?hm⟩
  rw [h]
  decide

/-- C2, amended: a text_color on which hex_to_rgb raises makes the job fail
with an uncaught ValueError only at colour conversion — after the video has
been downloaded to a temp file, the capture opened and the writer created,
and before any frame is read or the temp file removed; it is not a
request-time validation error. -/
theorem C2_invalid_color_amended (req : VideoPrompt) (env : World) (ls : List String)
    (pe : PyExc) (hf : env.fetch = Except.ok 200) (ho : env.opens = true)
    (hw : wrapLines req.prompt req.max_chars = Except.ok ls)
    (hc : hex_to_rgb req.text_color = Except.error pe) :
    (overlay_text req env).1 = Except.error (Failure.exc PyExc.valueError) ∧
    (overlay_text req env).2 =
      [Ev.fetch, Ev.writeTemp, Ev.openCap, Ev.makeTempOut, Ev.openOut] := by
  rw [overlay_text_colorFail req env ls pe hf ho hw hc]
  exact ⟨rfl, rfl⟩

/-- C2 witness at the "#zzzzzz" request in a successful environment. -/
theorem C2_invalid_color_amended_witness :
    (overlay_text reqBadColor envOk).1 = Except.error (Failure.exc PyExc.valueError) ∧
    (overlay_text reqBadColor envOk).2 =
      [Ev.fetch, Ev.writeTemp, Ev.openCap, Ev.makeTempOut, Ev.openOut] :=
  C2_invalid_color_amended reqBadColor envOk ["hi"] PyExc.valueError rfl rfl rfl rfl

/-- C3: with pos_y absent the block's base y is
height - (n * line_height + (n - 1) * 10) - 50 with line_height the font's
ascent + descent, line i is drawn at y = base + i * (line_height + 10), and
with pos_x absent line i is centred at x = (width - measured width of line
i) // 2 (floor division), using that line's own measured width. -/
theorem C3_layout_positions (width height : Nat) (f : PILFont) (lines : List String)
    (i : Nat) (hi : i < lines.length) :
    (linePositions width height none none f lines)[i]? =
      some (lines[i],
        ((width : Int) - (f.measure lines[i] : Int)).fdiv 2,
        (height : Int) - ((lines.length : Int) * ((f.ascent + f.descent : Nat) : Int) +
          ((lines.length : Int) - 1) * 10) - 50 +
          (i : Int) * (((f.ascent + f.descent : Nat) : Int) + 10)) := by
  rw [linePositions_getElem width height none none f lines i hi]

/-- C3 witness: second line of a two-line layout on a 100 by 200 frame. -/
theorem C3_layout_positions_witness :
    (linePositions 100 200 none none trivFont ["ab", "cd"])[1]? =
      some ("cd", 35, 135) := by
  rw [C3_layout_positions 100 200 trivFont ["ab", "cd"] 1 (by decide)]
  rfl

/-- C4, counterexample: when the downloaded video cannot be opened, the job
raises HTTP 500 after the temp input file was created, without releasing
streams or deleting the temp file — a failed job leaves its temp file. -/
theorem C4_counterexample :
    overlay_text reqBase envNoOpen =
      (Except.error (Failure.http 500), [Ev.fetch, Ev.writeTemp, Ev.openCap]) ∧
    Ev.writeTemp ∈ (overlay_text reqBase envNoOpen).2 ∧
    Ev.removeTemp ∉ (overlay_text reqBase envNoOpen).2 := by
  have h := overlay_text_openFail reqBase envNoOpen rfl rfl
  refine ⟨h, ?h1, ?h2⟩ <;> rw [h] <;> decide

/-- C4, amended: the streams are released and the temp input deleted only on
the success path (in that order, at the end); when the download itself
fails, no temp file has yet been created; but error exits after the temp
file exists do not delete it (see the counterexample). -/
theorem C4_cleanup_amended (req : VideoPrompt) (env : World) (ls : List String)
    (col : Int × Int × Int) :
    (env.fetch = Except.ok 200 → env.opens = true →
      wrapLines req.prompt req.max_chars = Except.ok ls →
      hex_to_rgb req.text_color = Except.ok col →
      (overlay_text req env).2 = [Ev.fetch, Ev.writeTemp, Ev.openCap, Ev.makeTempOut,
        Ev.openOut, Ev.releaseCap, Ev.releaseOut, Ev.removeTemp]) ∧
    (env.fetch = Except.error () → (overlay_text req env).2 = [Ev.fetch]) := by
  constructor
  · intro hf ho hw hc
    rw [overlay_text_success req env ls col hf ho hw hc]
  · intro hf
    rw [overlay_text_fetchErr req env hf]

/-- C4 witness: the success path releases and deletes; the failed-download
path created nothing. -/
theorem C4_cleanup_amended_witness :
    (overlay_text reqBase envOk).2 = [Ev.fetch, Ev.writeTemp, Ev.openCap, Ev.makeTempOut,
      Ev.openOut, Ev.releaseCap, Ev.releaseOut, Ev.removeTemp] ∧
    (overlay_text reqBase envFetchErr).2 = [Ev.fetch] :=
  ⟨(C4_cleanup_amended reqBase envOk ["hi"] (255, 255, 255)).1 rfl rfl rfl rfl,
   (C4_cleanup_amended reqBase envFetchErr ["hi"] (255, 255, 255)).2 rfl⟩

/-- C5, counterexample: the code computes int(font_scale * 20), which
truncates and has no 1px floor: font_scale 0 gives size 0 (below 1), and
font_scale 0.53125 (exact in binary floating point) gives size 10 while
round(0.53125 * 20) = round(10.625) = 11. -/
theorem C5_counterexample :
    fontSizeOf 0 = 0 ∧ ¬ (1 ≤ fontSizeOf 0) ∧
    fontSizeOf (17 / 32) = 10 ∧ pyRound ((17 : ℚ) / 32 * 20) = 11 := by
  refine ⟨?h1, ?h2, ?h3, ?h4⟩
  · norm_num [fontSizeOf, pyTruncInt]
  · norm_num [fontSizeOf, pyTruncInt]
  · norm_num [fontSizeOf, pyTruncInt]
  · norm_num [pyRound]

/-- C5, amended: for every non-negative font_scale the resolved pixel size
is the truncation ⌊font_scale * 20⌋, with no lower bound applied. -/
theorem C5_font_size_amended (s : ℚ) (hs : 0 ≤ s) : fontSizeOf s = ⌊20 * s⌋ := by
  unfold fontSizeOf pyTruncInt
  rw [if_pos (by positivity), mul_comm]

/-- C5 witness at font_scale 1. -/
theorem C5_font_size_amended_witness : fontSizeOf 1 = ⌊(20 : ℚ) * 1⌋ :=
  C5_font_size_amended 1 zero_le_one

/-- C6, counterexample: with max_chars given, the empty text wraps to zero
lines — wrap_lines("", 5) is the empty list, not a non-empty one. -/
theorem C6_counterexample :
    wrapLines "" (some 5) = Except.ok ([] : List String) := rfl

/-- C6, amended: wrap_lines returns the single line [text] whenever
max_chars is absent (also for empty text); with a positive max_chars, the
empty text yields zero lines. -/
theorem C6_wrap_amended (text : String) (w : Int) (hw : 1 ≤ w) :
    wrapLines text none = Except.ok [text] ∧
    wrapLines "" (some w) = Except.ok ([] : List String) := by
  refine ⟨rfl, ?h2⟩
  show pyWrap "" w = Except.ok ([] : List String)
  exact pyWrap_allWs "" w hw rfl

/-- C6 witness at text "hi" and max_chars 4. -/
theorem C6_wrap_amended_witness :
    wrapLines "hi" none = Except.ok ["hi"] ∧
    wrapLines "" (some 4) = Except.ok ([] : List String) :=
  C6_wrap_amended "hi" 4 (by decide)

/-- C7: the overlay step keeps the frame's width and height, and every pixel
at which no drawn line's glyph/stroke coverage is defined keeps its exact
input value (the BGR-to-RGB conversion and its inverse cancel). -/
theorem C7_overlay_pixels (calls : List (String × Int × Int)) (f : PILFont)
    (stroke : Int) (fill : Pix) (fr : Frame) (q : Int × Int)
    (h : ∀ c ∈ calls, f.coverage c.1 stroke (q.1 - c.2.1, q.2 - c.2.2) = none) :
    (overlayFrame calls f stroke fill fr).width = fr.width ∧
    (overlayFrame calls f stroke fill fr).height = fr.height ∧
    (overlayFrame calls f stroke fill fr).px q = fr.px q := by
  refine ⟨rfl, rfl, ?hp⟩
  show swapRB (drawAll f stroke fill calls (fun p => swapRB (fr.px p)) q) = fr.px q
  rw [drawAll_none f stroke fill q calls (fun p => swapRB (fr.px p)) h]
  exact swapRB_swapRB (fr.px q)

/-- C7 witness at a one-line draw call with an empty-coverage font. -/
theorem C7_overlay_pixels_witness :
    (overlayFrame [("hi", 0, 0)] trivFont 2 (255, 255, 255) frame0).width = frame0.width ∧
    (overlayFrame [("hi", 0, 0)] trivFont 2 (255, 255, 255) frame0).height = frame0.height ∧
    (overlayFrame [("hi", 0, 0)] trivFont 2 (255, 255, 255) frame0).px (0, 0) =
      frame0.px (0, 0) :=
  C7_overlay_pixels [("hi", 0, 0)] trivFont 2 (255, 255, 255) frame0 (0, 0)
    (fun c hc => rfl)

/-- C8: resolve_font is total — when ImageFont.truetype fails with the
IOError that load failures raise, the resolver returns the embedded default
font, and when it succeeds the requested font is used; no font-load error
reaches the caller. -/
theorem C8_font_fallback (env : World) (name : String) (size : Int) :
    (env.truetype name size = Except.error () →
      resolveFont env name size = env.defaultFont) ∧
    (∀ f, env.truetype name size = Except.ok f → resolveFont env name size = f) :=
  ⟨resolveFont_fallback env name size, fun f h => resolveFont_ok env name size f h⟩

/-- C8 witness in an environment whose font loading always fails. -/
theorem C8_font_fallback_witness :
    resolveFont envOk "arial.ttf" 20 = envOk.defaultFont :=
  (C8_font_fallback envOk "arial.ttf" 20).1 rfl

/-- C9: hex_to_rgb round-trips with 6-digit hex formatting — parsing the
hex string formed from any byte triple returns exactly that triple. -/
theorem C9_color_roundtrip (r g b : Nat) (hr : r < 256) (hg : g < 256) (hb : b < 256) :
    hex_to_rgb (toHex r g b) = Except.ok ((r : Int), (g : Int), (b : Int)) :=
  hex_roundtrip r g b hr hg hb

/-- C9 witness at (255, 128, 0). -/
theorem C9_color_roundtrip_witness :
    hex_to_rgb (toHex 255 128 0) = Except.ok ((255 : Int), (128 : Int), (0 : Int)) :=
  C9_color_roundtrip 255 128 0 (by decide) (by decide) (by decide)

/-- C10, counterexample: max_chars may be present but zero, and then the
wrapping step raises ValueError (textwrap rejects non-positive widths)
instead of producing zero lines, so no frame is copied at all. -/
theorem C10_counterexample :
    overlay_text reqZeroWidth envOk =
      (Except.error (Failure.exc PyExc.valueError), evPre) :=
  overlay_text_wrapFail reqZeroWidth envOk rfl rfl rfl

/-- C10, amended: with a positive max_chars, a whitespace-only (or empty)
prompt wraps to zero lines, and on an otherwise successful job every output
frame equals the corresponding input frame exactly. -/
theorem C10_whitespace_identity_amended (req : VideoPrompt) (env : World) (m : Int)
    (col : Int × Int × Int) (hm : req.max_chars = some m) (hm1 : 1 ≤ m)
    (hp : req.prompt.data.all isPyWs = true)
    (hf : env.fetch = Except.ok 200) (ho : env.opens = true)
    (hc : hex_to_rgb req.text_color = Except.ok col) :
    (overlay_text req env).1 =
      Except.ok { frames := env.frames, width := env.width,
                  height := env.height, fps := env.fps } := by
  have hw : wrapLines req.prompt req.max_chars = Except.ok ([] : List String) := by
    rw [hm]
    exact pyWrap_allWs req.prompt m hm1 hp
  rw [overlay_text_success req env [] col hf ho hw hc]
  have hmap : ∀ l : List Frame,
      l.map (overlayFrame (linePositions env.width env.height req.pos_x req.pos_y
        (resolveFont env req.font (fontSizeOf req.font_scale)) [])
        (resolveFont env req.font (fontSizeOf req.font_scale)) req.thickness col) = l := by
    intro l
    induction l with
    | nil => rfl
    | cons a r ih =>
      rw [List.map_cons, ih, linePositions_nil, overlayFrame_nil]
  rw [hmap env.frames]

/-- C10 witness at a one-space prompt with max_chars 1. -/
theorem C10_whitespace_identity_amended_witness :
    (overlay_text reqWsPrompt envOk).1 =
      Except.ok { frames := envOk.frames, width := envOk.width,
                  height := envOk.height, fps := envOk.fps } :=
  C10_whitespace_identity_amended reqWsPrompt envOk 1 (255, 255, 255) rfl (by decide)
    (by decide) rfl rfl rfl
